import Mathlib

/-!
A verification development for a CSV merge-and-deduplicate engine
(`scripts/combine_csvs.py`) and its column-stripping companion
(`scripts/remove_unnamed_columns.py`).

The Python code is shallowly embedded: a parsed CSV file is a
`List (List String)` (its rows, the first row being the header when present),
a directory is a list of (file name, parsed content) pairs, Python sets are
membership-checked lists, and the SHA-256 digest used for full-row
deduplication is implemented bit-for-bit over `Nat` bytes.
Python `float` parsing inside key normalization is modelled with exact
arithmetic (the guard guarantees the string is digits with at most one
decimal point, so the parsed value is `intpart.fracpart` exactly; binary
floating-point rounding at astronomically large magnitudes is idealized away).
-/

deriving instance DecidableEq for Except

namespace CombineCsvs

/-- `idx_by_name src name` embeds the dict comprehension
`{name: i for i, name in enumerate(src_header)}` followed by `.get(name)`:
later occurrences of a duplicated name overwrite earlier ones, so the
returned index is the index of the LAST occurrence of `name`, or `none`. -/
def idx_by_name (src : List String) (name : String) : Option Nat :=
  match src with
  | [] => none
  | h :: t =>
    match idx_by_name t name with
    | some i => some (i + 1)
    | none => if h = name then some 0 else none

/-- `build_index_map src_header dst_header`: for each column in `dst_header`,
its index in `src_header` (`none` if missing). -/
def build_index_map (src_header : List String) (dst_header : List String) :
    List (Option Nat) :=
  dst_header.map (idx_by_name src_header)

/-- `row_to_dst row idx_map`: the loop that appends `row[idx]` when the index
is defined and in bounds, and the empty string otherwise. -/
def row_to_dst (row : List String) (idx_map : List (Option Nat)) : List String :=
  match idx_map with
  | [] => []
  | none :: rest => "" :: row_to_dst row rest
  | some idx :: rest =>
    (if idx < row.length then row.getD idx "" else "") :: row_to_dst row rest

/-- Python whitespace for `str.strip()` (ASCII portion). -/
def isSpaceChar (c : Char) : Bool :=
  c = ' ' || c = '\t' || c = '\n' || c = '\r' || c = '\x0b' || c = '\x0c'

/-- Python `str.strip()`: drop leading and trailing whitespace. -/
def pyStrip (s : String) : String :=
  ⟨((s.data.dropWhile isSpaceChar).reverse.dropWhile isSpaceChar).reverse⟩

/-- Python `str.lower()` (ASCII portion, the only case the data model uses). -/
def lowerChar (c : Char) : Char :=
  if 'A' ≤ c && c ≤ 'Z' then Char.ofNat (c.toNat + 32) else c

/-- Lowercase every character: Python `str.lower()`. -/
def pyLower (s : String) : String :=
  ⟨s.data.map lowerChar⟩

/-- One decimal digit as a character. -/
def natDigitChar (n : Nat) : Char :=
  Char.ofNat (48 + n)

/-- Fuelled decimal rendering of a natural number, most significant first. -/
def natReprAux : Nat → Nat → List Char
  | 0, _ => []
  | fuel + 1, n =>
    if n < 10 then [natDigitChar n]
    else natReprAux fuel (n / 10) ++ [natDigitChar (n % 10)]

/-- Decimal representation of a natural number: Python `str(int(f))`. -/
def natRepr (n : Nat) : String :=
  ⟨natReprAux (n + 1) n⟩

/-- Characters of a string with the first `'.'` (if any) removed:
`s.replace('.', '', 1)`. -/
def removeFirstDot (s : List Char) : List Char :=
  match s with
  | [] => []
  | c :: rest => if c = '.' then rest else c :: removeFirstDot rest

/-- Python `str.isdigit`: nonempty and all digits (restricted to ASCII digits,
the only ones the merge's data model produces). -/
def isdigitStr (s : List Char) : Bool :=
  !s.isEmpty && s.all Char.isDigit

/-- Characters before the first `'.'`. -/
def intPart (s : List Char) : List Char :=
  match s with
  | [] => []
  | c :: rest => if c = '.' then [] else c :: intPart rest

/-- Characters after the first `'.'` (empty when there is no dot). -/
def fracPart (s : List Char) : List Char :=
  match s with
  | [] => []
  | c :: rest => if c = '.' then rest else fracPart rest

/-- Decimal value of a digit string (most significant first). -/
def digitsToNat (s : List Char) : Nat :=
  match s with
  | [] => 0
  | c :: rest => (c.toNat - 48) * 10 ^ rest.length + digitsToNat rest

/-- `_normalize_for_key`: trim; if the trimmed value is digits with at most
one decimal point, parse it as `intpart.fracpart`; when the fractional part
is zero the value is an integer and `str(int(float(s)))` is its canonical
decimal representation; otherwise lowercase the trimmed string. -/
def _normalize_for_key (val : String) : String :=
  let s := pyStrip val
  if isdigitStr (removeFirstDot s.data) then
    if digitsToNat (fracPart s.data) = 0 then
      natRepr (digitsToNat (intPart s.data))
    else
      pyLower s
  else
    pyLower s

/-- UTF-8 encoding of one character as bytes (`.encode('utf-8')`). -/
def utf8EncodeChar (c : Char) : List Nat :=
  let n := c.toNat
  if n < 128 then [n]
  else if n < 2048 then
    [192 ||| (n >>> 6), 128 ||| (n &&& 63)]
  else if n < 65536 then
    [224 ||| (n >>> 12), 128 ||| ((n >>> 6) &&& 63), 128 ||| (n &&& 63)]
  else
    [240 ||| (n >>> 18), 128 ||| ((n >>> 12) &&& 63), 128 ||| ((n >>> 6) &&& 63),
      128 ||| (n &&& 63)]

/-- UTF-8 bytes of a string. -/
def strUtf8 (s : String) : List Nat :=
  (s.data.map utf8EncodeChar).flatten

/-- Reduce to a 32-bit word. -/
def w32 (n : Nat) : Nat := n % 4294967296

/-- 32-bit right rotation. -/
def rotr (x n : Nat) : Nat := w32 ((x >>> n) ||| (x <<< (32 - n)))

/-- SHA-256 round constants. -/
def shaK : List Nat :=
  [1116352408, 1899447441, 3049323471, 3921009573, 961987163, 1508970993,
   2453635748, 2870763221, 3624381080, 310598401, 607225278, 1426881987,
   1925078388, 2162078206, 2614888103, 3248222580, 3835390401, 4022224774,
   264347078, 604807628, 770255983, 1249150122, 1555081692, 1996064986,
   2554220882, 2821834349, 2952996808, 3210313671, 3336571891, 3584528711,
   113926993, 338241895, 666307205, 773529912, 1294757372, 1396182291,
   1695183700, 1986661051, 2177026350, 2456956037, 2730485921, 2820302411,
   3259730800, 3345764771, 3516065817, 3600352804, 4094571909, 275423344,
   430227734, 506948616, 659060556, 883997877, 958139571, 1322822218,
   1537002063, 1747873779, 1955562222, 2024104815, 2227730452, 2361852424,
   2428436474, 2756734187, 3204031479, 3329325298]

/-- SHA-256 initial hash state. -/
def shaInit : List Nat :=
  [1779033703, 3144134277, 1013904242, 2773480762, 1359893119, 2600822924,
   528734635, 1541459225]

/-- Big-endian bytes (8 of them) of the bit length. -/
def lenBytes (n : Nat) : List Nat :=
  [(n >>> 56) % 256, (n >>> 48) % 256, (n >>> 40) % 256, (n >>> 32) % 256,
   (n >>> 24) % 256, (n >>> 16) % 256, (n >>> 8) % 256, n % 256]

/-- SHA-256 message padding to a multiple of 64 bytes. -/
def shaPad (msg : List Nat) : List Nat :=
  let L := msg.length
  let z := (120 - ((L + 1) % 64)) % 64
  msg ++ 128 :: List.replicate z 0 ++ lenBytes (8 * L)

/-- Split a byte list into 64-byte blocks (fuelled). -/
def toBlocksAux : Nat → List Nat → List (List Nat)
  | 0, _ => []
  | _, [] => []
  | fuel + 1, l => l.take 64 :: toBlocksAux fuel (l.drop 64)

/-- 64-byte blocks of a byte list. -/
def toBlocks (l : List Nat) : List (List Nat) :=
  toBlocksAux l.length l

/-- Big-endian 32-bit word from 4 bytes. -/
def bytesToWord (b : List Nat) : Nat :=
  b.getD 0 0 * 16777216 + b.getD 1 0 * 65536 + b.getD 2 0 * 256 + b.getD 3 0

/-- The 16 words of a 64-byte block. -/
def blockWords (block : List Nat) : List Nat :=
  (List.range 16).map (fun i => bytesToWord ((block.drop (4 * i)).take 4))

/-- Lowercase sigma-0. -/
def ssig0 (x : Nat) : Nat := (rotr x 7) ^^^ (rotr x 18) ^^^ (x >>> 3)

/-- Lowercase sigma-1. -/
def ssig1 (x : Nat) : Nat := (rotr x 17) ^^^ (rotr x 19) ^^^ (x >>> 10)

/-- Uppercase Sigma-0. -/
def bsig0 (x : Nat) : Nat := (rotr x 2) ^^^ (rotr x 13) ^^^ (rotr x 22)

/-- Uppercase Sigma-1. -/
def bsig1 (x : Nat) : Nat := (rotr x 6) ^^^ (rotr x 11) ^^^ (rotr x 25)

/-- Extend the 16 block words to the 64-word message schedule. -/
def extendW : Nat → List Nat → List Nat
  | 0, w => w
  | n + 1, w =>
    let w' := extendW n w
    let t := w32 (ssig1 (w'.getD (w'.length - 2) 0) + w'.getD (w'.length - 7) 0 +
      ssig0 (w'.getD (w'.length - 15) 0) + w'.getD (w'.length - 16) 0)
    w' ++ [t]

/-- One SHA-256 compression round; the state is the 8 words a..h. -/
def compressStep (st : List Nat) (wk : Nat × Nat) : List Nat :=
  match st with
  | [a, b, c, d, e, f, g, h] =>
    let ch := (e &&& f) ^^^ ((4294967295 - e) &&& g)
    let maj := (a &&& b) ^^^ (a &&& c) ^^^ (b &&& c)
    let t1 := w32 (h + bsig1 e + ch + wk.2 + wk.1)
    let t2 := w32 (bsig0 a + maj)
    [w32 (t1 + t2), a, b, c, w32 (d + t1), e, f, g]
  | other => other

/-- Compress one 64-byte block into the running hash state. -/
def compressBlock (st : List Nat) (block : List Nat) : List Nat :=
  let w := extendW 48 (blockWords block)
  let fin := (w.zip shaK).foldl compressStep st
  List.zipWith (fun x y => w32 (x + y)) st fin

/-- Big-endian bytes of one 32-bit word. -/
def wordBytes (w : Nat) : List Nat :=
  [(w >>> 24) % 256, (w >>> 16) % 256, (w >>> 8) % 256, w % 256]

/-- SHA-256 digest (32 bytes) of a byte message. -/
def sha256 (msg : List Nat) : List Nat :=
  (((toBlocks (shaPad msg)).foldl compressBlock shaInit).map wordBytes).flatten

/-- Join the cells on a NUL byte. -/
def joinNul : List String → String
  | [] => ""
  | [c] => c
  | c :: rest => c ++ "\x00" ++ joinNul rest

/-- `hash_row`: SHA-256 digest of the cells joined with NUL, UTF-8 encoded. -/
def hash_row (cells : List String) : List Nat :=
  sha256 (strUtf8 (joinNul cells))

/-- The run statistics dictionary `totals`. -/
structure Totals where
  files : Nat
  rows_in : Nat
  duplicates_skipped : Nat
  rows_out : Nat
deriving DecidableEq, Repr

/-- The mutable state of a merge run: the two seen-sets (Python sets,
modelled as membership-checked lists), the statistics, and the data rows
written so far (in write order, header excluded). -/
structure MergeState where
  seen_full_rows : List (List Nat)
  seen_keys : List (List String)
  totals : Totals
  out_rows : List (List String)
deriving DecidableEq, Repr

/-- The normalized key tuple
`tuple(_normalize_for_key(out_row[i]) for i in key_idx if i is not None)`. -/
def keyTuple (key_idx : List (Option Nat)) (out_row : List String) : List String :=
  (key_idx.filterMap id).map (fun i => _normalize_for_key (out_row.getD i ""))

/-- The body of the per-row loop: count the row, map it to the canonical
shape, decide duplicate by key tuple (when `use_key`) or full-row hash
(otherwise), and write it unless it is a duplicate. -/
def step (use_key : Bool) (key_idx : List (Option Nat))
    (idx_map : List (Option Nat)) (st : MergeState) (row : List String) :
    MergeState :=
  let out_row := row_to_dst row idx_map
  let t0 := st.totals
  let st1 : MergeState :=
    { st with totals := { t0 with rows_in := t0.rows_in + 1 } }
  if use_key then
    let k := keyTuple key_idx out_row
    if k ∈ st1.seen_keys then
      { st1 with totals :=
          { st1.totals with duplicates_skipped := st1.totals.duplicates_skipped + 1 } }
    else
      { st1 with seen_keys := k :: st1.seen_keys,
                 out_rows := st1.out_rows ++ [out_row],
                 totals := { st1.totals with rows_out := st1.totals.rows_out + 1 } }
  else
    let hsh := hash_row out_row
    if hsh ∈ st1.seen_full_rows then
      { st1 with totals :=
          { st1.totals with duplicates_skipped := st1.totals.duplicates_skipped + 1 } }
    else
      { st1 with seen_full_rows := hsh :: st1.seen_full_rows,
                 out_rows := st1.out_rows ++ [out_row],
                 totals := { st1.totals with rows_out := st1.totals.rows_out + 1 } }

/-- The body of the per-file loop: count the file; an empty file is skipped
after its header read raises `StopIteration`; otherwise the first row is the
source header, the index map is built from it, and every remaining row is
processed by `step`. -/
def processFile (use_key : Bool) (key_idx : List (Option Nat))
    (canonical_header : List String) (st : MergeState)
    (file : List (List String)) : MergeState :=
  let t0 := st.totals
  let st1 : MergeState := { st with totals := { t0 with files := t0.files + 1 } }
  match file with
  | [] => st1
  | src_header :: rows =>
    rows.foldl (step use_key key_idx (build_index_map src_header canonical_header)) st1

/-- `read_header` of a parsed file: its first row, or `[]` on `StopIteration`. -/
def read_header (file : List (List String)) : List String :=
  file.headD []

/-- The canonical-header scan: the header of the first file whose header is
non-empty (a falsy `hdr` is skipped). -/
def firstHeader : List (List (List String)) → Option (List String)
  | [] => none
  | f :: rest =>
    if (read_header f).isEmpty then firstHeader rest else some (read_header f)

/-- The configured deduplication key columns. -/
def KEY_COLUMNS : List String := ["game_id", "play_id"]

/-- `key_idx`: position of each key column in the canonical header. -/
def key_idx_of (canonical_header : List String) : List (Option Nat) :=
  KEY_COLUMNS.map (idx_by_name canonical_header)

/-- `use_key = all(i is not None for i in key_idx)`. -/
def use_key_of (canonical_header : List String) : Bool :=
  (key_idx_of canonical_header).all Option.isSome

/-- The two fatal `SystemExit` conditions of the merge. -/
inductive MergeErr where
  | noInputFiles
  | emptyInputSet
deriving DecidableEq, Repr

/-- The zero-initialized state of a run. -/
def initState : MergeState :=
  { seen_full_rows := [], seen_keys := [], totals := ⟨0, 0, 0, 0⟩, out_rows := [] }

/-- `combine_csvs` on an already-listed file sequence.  On success the result
carries the statistics and the written output (canonical header first); both
fatal conditions are raised before the output file is opened, so an `error`
result carries no output at all. -/
def combine_files (files : List (List (List String))) :
    Except MergeErr (Totals × List (List String)) :=
  if files.isEmpty then .error .noInputFiles
  else
    match firstHeader files with
    | none => .error .emptyInputSet
    | some canonical_header =>
      let fin := files.foldl
        (processFile (use_key_of canonical_header) (key_idx_of canonical_header)
          canonical_header)
        initState
      .ok (fin.totals, canonical_header :: fin.out_rows)

/-- Case-insensitive `.csv` extension test: `f.lower().endswith('.csv')`. -/
def isCsvName (name : String) : Bool :=
  (name.data.map lowerChar).reverse.take 4 == ['v', 's', 'c', '.']

/-- Code-point lexicographic order on names, as Python `sorted` uses. -/
def charListLe : List Char → List Char → Bool
  | [], _ => true
  | _ :: _, [] => false
  | c :: cs, d :: ds =>
    if c.toNat < d.toNat then true
    else if d.toNat < c.toNat then false
    else charListLe cs ds

/-- A directory is a list of (file name, parsed content) pairs
(regular files only; `os.path.isfile` filters out anything else). -/
abbrev DirEntry := String × List (List String)

/-- Stable insertion for sorting by name. -/
def insertByName (e : DirEntry) : List DirEntry → List DirEntry
  | [] => [e]
  | x :: xs =>
    if charListLe x.1.data e.1.data then x :: insertByName e xs else e :: x :: xs

/-- Stable insertion sort by file name: `sorted(os.listdir(directory))`. -/
def sortByName (l : List DirEntry) : List DirEntry :=
  l.foldl (fun acc e => insertByName e acc) []

/-- `list_csvs`: the regular files with a `.csv` extension
(case-insensitive), sorted by name. -/
def list_csvs (dir : List DirEntry) : List DirEntry :=
  sortByName (dir.filter (fun e => isCsvName e.1))

/-- `combine_csvs input_dir`: discover the CSV files and merge them. -/
def combine_csvs (dir : List DirEntry) :
    Except MergeErr (Totals × List (List String)) :=
  combine_files ((list_csvs dir).map Prod.snd)

/-- Python `(h or '').strip().startswith('Unnamed')`. -/
def isUnnamed (h : String) : Bool :=
  (pyStrip h).data.take 7 == ['U', 'n', 'n', 'a', 'm', 'e', 'd']

/-- Pad a row with empty strings up to the header length (defensive). -/
def padRow (row : List String) (n : Nat) : List String :=
  row ++ List.replicate (n - row.length) ""

/-- `remove_unnamed_columns` on one parsed file: returns the number of
removed columns and the resulting file content (the original content when
nothing is removed or the file is empty). -/
def remove_unnamed_columns (file : List (List String)) :
    Nat × List (List String) :=
  match file with
  | [] => (0, [])
  | header :: rows =>
    let keep_idx := (List.range header.length).filter
      (fun i => !isUnnamed (header.getD i ""))
    let removed := header.length - keep_idx.length
    if removed = 0 then (0, header :: rows)
    else
      (removed,
        keep_idx.map (fun i => header.getD i "") ::
          rows.map (fun row => keep_idx.map (fun i => (padRow row header.length).getD i "")))

/-- The key-normalization guard in the spec's words: the trimmed value
contains at most one decimal point and otherwise only digits (at least one),
and the parsed value has no fractional part — every digit after the decimal
point is zero. -/
def specNumericNoFrac (t : String) : Prop :=
  t.data.count '.' ≤ 1 ∧ (∀ c ∈ t.data, c ≠ '.' → c.isDigit = true) ∧
    (∃ c ∈ t.data, c ≠ '.') ∧ ∀ c ∈ fracPart t.data, c = '0'

instance : DecidablePred specNumericNoFrac := fun t => by
  unfold specNumericNoFrac
  infer_instance

/-- The balance property of the run statistics. -/
def Balanced (t : Totals) : Prop :=
  t.rows_in = t.rows_out + t.duplicates_skipped

/-- The dedup invariant of a run state: the keys of the written rows are
pairwise distinct, and each is registered in the seen-set of the active
mode. -/
def SeenInv : Bool → List (Option Nat) → MergeState → Prop
  | false, _, st =>
    (st.out_rows.map hash_row).Nodup ∧
      ∀ r ∈ st.out_rows, hash_row r ∈ st.seen_full_rows
  | true, k, st =>
    (st.out_rows.map (keyTuple k)).Nodup ∧
      ∀ r ∈ st.out_rows, keyTuple k r ∈ st.seen_keys

/-! ### Shared lemmas about header reconciliation -/

theorem idx_by_name_eq_none_iff (src : List String) (name : String) :
    idx_by_name src name = none ↔ name ∉ src := by
  induction src with
  | nil => simp [idx_by_name]
  | cons h t ih =>
    cases hrec : idx_by_name t name with
    | some j =>
      simp only [idx_by_name, hrec]
      have : name ∈ t := by
        by_contra hmem
        exact absurd (ih.mpr hmem) (by simp [hrec])
      simp [this]
    | none =>
      simp only [idx_by_name, hrec]
      have ht : name ∉ t := ih.mp hrec
      by_cases hh : h = name
      · simp [hh]
      · simp [hh, ht, Ne.symm hh]

theorem idx_by_name_isSome_iff (src : List String) (name : String) :
    (idx_by_name src name).isSome = true ↔ name ∈ src := by
  rw [Option.isSome_iff_ne_none, ne_eq, idx_by_name_eq_none_iff, not_not]

theorem idx_by_name_spec (src : List String) (name : String) (i : Nat)
    (h : idx_by_name src name = some i) :
    i < src.length ∧ src.getD i "" = name ∧
      ∀ k, k < src.length → src.getD k "" = name → k ≤ i := by
  induction src generalizing i with
  | nil => simp [idx_by_name] at h
  | cons hd t ih =>
    cases hrec : idx_by_name t name with
    | some j =>
      simp only [idx_by_name, hrec] at h
      obtain rfl : j + 1 = i := by exact_mod_cast congrArg (Option.getD · 0) h
      obtain ⟨h1, h2, h3⟩ := ih j hrec
      refine ⟨by simpa using h1, by simpa using h2, ?_⟩
      intro k hk hkeq
      cases k with
      | zero => omega
      | succ k' =>
        have := h3 k' (by simpa using hk) (by simpa using hkeq)
        omega
    | none =>
      simp only [idx_by_name, hrec] at h
      by_cases hh : hd = name
      · simp only [hh, if_pos rfl] at h
        obtain rfl : 0 = i := by exact_mod_cast congrArg (Option.getD · 0) h
        refine ⟨by simp, by simpa using hh, ?_⟩
        intro k hk hkeq
        cases k with
        | zero => omega
        | succ k' =>
          exfalso
          have hmem : name ∈ t := by
            have : t.getD k' "" = name := by simpa using hkeq
            have hk' : k' < t.length := by simpa using hk
            rw [List.getD_eq_getElem?_getD, List.getElem?_eq_getElem hk'] at this
            simp only [Option.getD_some] at this
            exact this ▸ List.getElem_mem hk'
          exact absurd hrec (by simpa [idx_by_name_eq_none_iff] using hmem)
      · simp [hh] at h

theorem build_index_map_length (src dst : List String) :
    (build_index_map src dst).length = dst.length := by
  simp [build_index_map]

theorem build_index_map_getD (src dst : List String) (j : Nat)
    (h : j < dst.length) :
    (build_index_map src dst).getD j none = idx_by_name src (dst.getD j "") := by
  simp [build_index_map, List.getD_eq_getElem?_getD, List.getElem?_map,
    List.getElem?_eq_getElem h]

theorem row_to_dst_length (row : List String) (m : List (Option Nat)) :
    (row_to_dst row m).length = m.length := by
  induction m with
  | nil => rfl
  | cons o rest ih => cases o <;> simp [row_to_dst, ih]

theorem row_to_dst_getD (row : List String) (m : List (Option Nat)) (i : Nat)
    (h : i < m.length) :
    (row_to_dst row m).getD i "" =
      match m.getD i none with
      | none => ""
      | some idx => if idx < row.length then row.getD idx "" else "" := by
  induction m generalizing i with
  | nil => simp at h
  | cons o rest ih =>
    cases i with
    | zero => cases o <;> simp [row_to_dst]
    | succ i' =>
      have hi' : i' < rest.length := by simpa using h
      cases o <;> simpa [row_to_dst] using ih i' hi'

theorem row_to_dst_getD_lt (row : List String) (m : List (Option Nat)) (i idx : Nat)
    (h : i < m.length) (hm : m.getD i none = some idx) (hidx : idx < row.length) :
    (row_to_dst row m).getD i "" = row.getD idx "" := by
  rw [row_to_dst_getD row m i h, hm]
  simp [hidx]

/-- Applying the canonical self-mapping `build_index_map H H` to a row that
was already produced by mapping into `H` is the identity: the self-mapping
sends position `j` to the last position carrying the same column name, and
mapped rows agree on all positions with equal names. -/
theorem row_to_dst_self_map (H src_header row : List String) :
    row_to_dst (row_to_dst row (build_index_map src_header H))
      (build_index_map H H) =
    row_to_dst row (build_index_map src_header H) := by
  set r := row_to_dst row (build_index_map src_header H) with hr
  have hrlen : r.length = H.length := by
    rw [hr, row_to_dst_length, build_index_map_length]
  have hlen : (row_to_dst r (build_index_map H H)).length = r.length := by
    rw [row_to_dst_length, build_index_map_length, hrlen]
  apply List.ext_getElem hlen
  intro j hj1 hj2
  have hjH : j < H.length := by omega
  have hmem : H.getD j "" ∈ H := by
    rw [List.getD_eq_getElem _ _ hjH]
    exact List.getElem_mem hjH
  obtain ⟨i, hi⟩ := Option.isSome_iff_exists.mp
    ((idx_by_name_isSome_iff H (H.getD j "")).mpr hmem)
  obtain ⟨hi1, hi2, _⟩ := idx_by_name_spec H (H.getD j "") i hi
  have hself : (build_index_map H H).getD j none = some i := by
    rw [build_index_map_getD H H j hjH, hi]
  have hiR : i < r.length := by omega
  have lhs : (row_to_dst r (build_index_map H H)).getD j "" = r.getD i "" :=
    row_to_dst_getD_lt r (build_index_map H H) j i
      (by rw [build_index_map_length]; exact hjH) hself hiR
  have hsame : r.getD i "" = r.getD j "" := by
    rw [hr, row_to_dst_getD row _ i (by rw [build_index_map_length]; exact hi1),
      row_to_dst_getD row _ j (by rw [build_index_map_length]; exact hjH),
      build_index_map_getD src_header H i hi1,
      build_index_map_getD src_header H j hjH, hi2]
  rw [← List.getD_eq_getElem _ "" hj1, ← List.getD_eq_getElem _ "" hj2, lhs,
    hsame]

/-- C7: `mapRow` (`row_to_dst`) is total and never fails on short or
malformed rows: the output has exactly one cell per mapping entry, and each
cell equals `row[idx]` when the entry is a defined index within bounds, and
the empty string when the entry is undefined or the index is out of bounds. -/
theorem c7_row_to_dst_total (row : List String) (m : List (Option Nat)) :
    (row_to_dst row m).length = m.length ∧
    ∀ i, i < m.length →
      (row_to_dst row m).getD i "" =
        match m.getD i none with
        | none => ""
        | some idx => if idx < row.length then row.getD idx "" else "" :=
  ⟨row_to_dst_length row m, fun i h => row_to_dst_getD row m i h⟩

/-- C7 witness: a row of length 2 against a mapping whose entries are an
in-bounds index, a missing column, and an out-of-bounds index. -/
theorem c7_row_to_dst_total_witness :
    (row_to_dst ["x", "y"] [some 1, none, some 7]).length = 3 ∧
    (row_to_dst ["x", "y"] [some 1, none, some 7]).getD 0 "" = "y" ∧
    (row_to_dst ["x", "y"] [some 1, none, some 7]).getD 1 "" = "" ∧
    (row_to_dst ["x", "y"] [some 1, none, some 7]).getD 2 "" = "" := by
  have h := c7_row_to_dst_total ["x", "y"] [some 1, none, some 7]
  refine ⟨h.1, ?_, ?_, ?_⟩
  · have := h.2 0 (by decide); simpa using this
  · have := h.2 1 (by decide); simpa using this
  · have := h.2 2 (by decide); simpa using this

/-- C3 counterexample: with source header `["a", "a"]` and canonical header
`["a"]`, the computed mapping is `[some 1]` — the LAST occurrence's index —
so it is not `[some 0]`, the first occurrence the claim requires. -/
theorem c3_first_occurrence_counterexample :
    build_index_map ["a", "a"] ["a"] = [some 1] ∧
    build_index_map ["a", "a"] ["a"] ≠ [some 0] := by
  decide

/-- C3 (amended): in `build_index_map`, when a column name occurs more than
once in the source header, the mapping for a canonical column of that name
points at the last occurrence's index in the source header (the dict
comprehension lets later occurrences overwrite earlier ones), and no error
is raised: the entry is defined whenever the name occurs at all. -/
theorem c3_duplicate_names_last_occurrence (src dst : List String) (j : Nat)
    (hj : j < dst.length) (hmem : dst.getD j "" ∈ src) :
    ∃ i, (build_index_map src dst).getD j none = some i ∧
      src.getD i "" = dst.getD j "" ∧
      ∀ k, k < src.length → src.getD k "" = dst.getD j "" → k ≤ i := by
  obtain ⟨i, hi⟩ := Option.isSome_iff_exists.mp
    ((idx_by_name_isSome_iff src (dst.getD j "")).mpr hmem)
  obtain ⟨_, h2, h3⟩ := idx_by_name_spec src (dst.getD j "") i hi
  exact ⟨i, by rw [build_index_map_getD src dst j hj, hi], h2, h3⟩

/-- C3 witness: the duplicated source header `["a", "a"]`. -/
theorem c3_duplicate_names_last_occurrence_witness :
    ∃ i, (build_index_map ["a", "a"] ["a"]).getD 0 none = some i ∧
      (["a", "a"] : List String).getD i "" = (["a"] : List String).getD 0 "" ∧
      ∀ k, k < (["a", "a"] : List String).length →
        (["a", "a"] : List String).getD k "" = (["a"] : List String).getD 0 "" →
        k ≤ i :=
  c3_duplicate_names_last_occurrence ["a", "a"] ["a"] 0 (by decide) (by decide)

/-! ### Key normalization: the guard versus the spec's numeric pattern -/

theorem removeFirstDot_eq_parts (l : List Char) :
    removeFirstDot l = intPart l ++ fracPart l := by
  induction l with
  | nil => rfl
  | cons c rest ih =>
    by_cases h : c = '.' <;> simp [removeFirstDot, intPart, fracPart, h, ih]

theorem removeFirstDot_eq_nil_iff (l : List Char) :
    removeFirstDot l = [] ↔ l = [] ∨ l = ['.'] := by
  cases l with
  | nil => simp [removeFirstDot]
  | cons c rest =>
    by_cases hc : c = '.'
    · subst hc; simp [removeFirstDot]
    · simp [removeFirstDot, hc]

theorem char_toNat_of_isDigit {c : Char} (h : c.isDigit = true) :
    48 ≤ c.toNat ∧ c.toNat ≤ 57 := by
  simp only [Char.isDigit, ge_iff_le, Bool.and_eq_true, decide_eq_true_eq] at h
  obtain ⟨h1, h2⟩ := h
  rw [UInt32.le_def, BitVec.le_def] at h1 h2
  exact ⟨h1, h2⟩

theorem char_eq_zero_of_toNat {c : Char} (h : c.toNat = 48) : c = '0' := by
  have hc := Char.ofNat_toNat c
  rw [h] at hc
  rw [← hc]

theorem digitsToNat_eq_zero_of_all_zero (l : List Char)
    (h : ∀ c ∈ l, c = '0') : digitsToNat l = 0 := by
  induction l with
  | nil => rfl
  | cons c rest ih =>
    have hc : c = '0' := h c (List.mem_cons_self c rest)
    subst hc
    simp only [digitsToNat]
    rw [ih (fun x hx => h x (List.mem_cons_of_mem _ hx))]
    have h0 : '0'.toNat - 48 = 0 := by decide
    rw [h0, Nat.zero_mul, Nat.add_zero]

theorem digitsToNat_eq_zero_iff (l : List Char)
    (hd : ∀ c ∈ l, c.isDigit = true) :
    digitsToNat l = 0 ↔ ∀ c ∈ l, c = '0' := by
  constructor
  · intro h
    induction l with
    | nil => simp
    | cons c rest ih =>
      have hc := hd c (List.mem_cons_self c rest)
      have hpow : 0 < 10 ^ rest.length := by positivity
      simp only [digitsToNat, Nat.add_eq_zero, Nat.mul_eq_zero] at h
      obtain ⟨h1, h2⟩ := h
      have hcn : c.toNat - 48 = 0 := by
        rcases h1 with h1 | h1
        · exact h1
        · omega
      obtain ⟨h48, _⟩ := char_toNat_of_isDigit hc
      intro x hx
      rcases List.mem_cons.mp hx with rfl | hx
      · exact char_eq_zero_of_toNat (by omega)
      · exact ih (fun y hy => hd y (List.mem_cons_of_mem _ hy)) h2 x hx
  · exact digitsToNat_eq_zero_of_all_zero l

theorem all_isDigit_removeFirstDot_iff (l : List Char) :
    (removeFirstDot l).all Char.isDigit = true ↔
      (l.count '.' ≤ 1 ∧ ∀ c ∈ l, c ≠ '.' → c.isDigit = true) := by
  induction l with
  | nil => simp [removeFirstDot]
  | cons c rest ih =>
    by_cases hc : c = '.'
    · subst hc
      simp only [removeFirstDot, if_pos rfl, List.count_cons_self]
      constructor
      · intro h
        have hnodot : '.' ∉ rest := by
          intro hmem
          have := List.all_eq_true.mp h '.' hmem
          simp [Char.isDigit] at this
        refine ⟨by have := List.count_eq_zero.mpr hnodot; omega, ?_⟩
        intro x hx hxne
        rcases List.mem_cons.mp hx with rfl | hx
        · exact absurd rfl hxne
        · exact List.all_eq_true.mp h x hx
      · rintro ⟨h1, h2⟩
        apply List.all_eq_true.mpr
        intro x hx
        have hxne : x ≠ '.' := by
          rintro rfl
          have hz : rest.count '.' = 0 := by omega
          exact absurd hx (List.count_eq_zero.mp hz)
        exact h2 x (List.mem_cons_of_mem _ hx) hxne
    · simp only [removeFirstDot, if_neg hc, List.all_cons, Bool.and_eq_true, ih,
        List.count_cons_of_ne (Ne.symm hc)]
      constructor
      · rintro ⟨hcd, h1, h2⟩
        refine ⟨h1, ?_⟩
        intro x hx hxne
        rcases List.mem_cons.mp hx with rfl | hx
        · exact hcd
        · exact h2 x hx hxne
      · rintro ⟨h1, h2⟩
        exact ⟨h2 c (List.mem_cons_self c rest) hc, h1,
          fun x hx hxne => h2 x (List.mem_cons_of_mem _ hx) hxne⟩

theorem isdigitStr_removeFirstDot_iff (l : List Char) :
    isdigitStr (removeFirstDot l) = true ↔
      (l.count '.' ≤ 1 ∧ (∀ c ∈ l, c ≠ '.' → c.isDigit = true) ∧
        ∃ c ∈ l, c ≠ '.') := by
  unfold isdigitStr
  rw [Bool.and_eq_true, all_isDigit_removeFirstDot_iff,
    Bool.not_eq_true', List.isEmpty_eq_false, ne_eq,
    removeFirstDot_eq_nil_iff]
  constructor
  · rintro ⟨hne, h1, h2⟩
    refine ⟨h1, h2, ?_⟩
    by_contra hall
    push_neg at hall
    apply hne
    cases l with
    | nil => exact Or.inl rfl
    | cons c rest =>
      have hc : c = '.' := hall c (List.mem_cons_self c rest)
      subst hc
      cases rest with
      | nil => exact Or.inr rfl
      | cons d t =>
        exfalso
        have hd : d = '.' := hall d (by simp)
        subst hd
        simp only [List.count_cons_self] at h1
        omega
  · rintro ⟨h1, h2, x, hx, hxne⟩
    refine ⟨?_, h1, h2⟩
    rintro (rfl | rfl)
    · simp at hx
    · simp at hx
      exact hxne hx

theorem normalize_guard_iff (t : String) :
    (isdigitStr (removeFirstDot t.data) = true ∧
      digitsToNat (fracPart t.data) = 0) ↔ specNumericNoFrac t := by
  constructor
  · rintro ⟨hg, hz⟩
    obtain ⟨h1, h2, h3⟩ := (isdigitStr_removeFirstDot_iff t.data).mp hg
    refine ⟨h1, h2, h3, ?_⟩
    have halldigit : (removeFirstDot t.data).all Char.isDigit = true := by
      unfold isdigitStr at hg
      exact (Bool.and_eq_true _ _).mp hg |>.2
    have hfdigit : ∀ c ∈ fracPart t.data, c.isDigit = true := by
      intro c hcmem
      apply List.all_eq_true.mp halldigit
      rw [removeFirstDot_eq_parts]
      exact List.mem_append_right _ hcmem
    exact (digitsToNat_eq_zero_iff _ hfdigit).mp hz
  · rintro ⟨h1, h2, h3, h4⟩
    exact ⟨(isdigitStr_removeFirstDot_iff t.data).mpr ⟨h1, h2, h3⟩,
      digitsToNat_eq_zero_of_all_zero _ h4⟩

/-- C4: key normalization maps `"7"`, `"7.0"` and `" 7.00 "` to the same
key `"7"`, maps `"ABC"` and `"abc"` to the same key; and in general it
trims whitespace, collapses a digits-and-at-most-one-decimal-point value
with no fractional part to its integer representation, and otherwise
lowercases (the yardstick `specNumericNoFrac` is worded from the spec). -/
theorem c4_key_normalization :
    _normalize_for_key "7" = "7" ∧
    _normalize_for_key "7.0" = "7" ∧
    _normalize_for_key " 7.00 " = "7" ∧
    _normalize_for_key "ABC" = _normalize_for_key "abc" ∧
    (∀ val, specNumericNoFrac (pyStrip val) →
      _normalize_for_key val = natRepr (digitsToNat (intPart (pyStrip val).data))) ∧
    (∀ val, ¬ specNumericNoFrac (pyStrip val) →
      _normalize_for_key val = pyLower (pyStrip val)) := by
  refine ⟨by decide, by decide, by decide, by decide, ?_, ?_⟩
  · intro val h
    obtain ⟨hg, hz⟩ := (normalize_guard_iff (pyStrip val)).mpr h
    simp only [_normalize_for_key, hg, if_true, hz, if_pos rfl]
  · intro val h
    by_cases hg : isdigitStr (removeFirstDot (pyStrip val).data) = true
    · by_cases hz : digitsToNat (fracPart (pyStrip val).data) = 0
      · exact absurd ((normalize_guard_iff _).mp ⟨hg, hz⟩) h
      · simp only [_normalize_for_key, hg, if_true, hz, if_false]
    · rw [Bool.not_eq_true] at hg
      simp only [_normalize_for_key, hg, Bool.false_eq_true, if_false]

/-- C4 witness: one value the numeric collapse applies to and one it does
not, with the hypotheses discharged concretely. -/
theorem c4_key_normalization_witness :
    _normalize_for_key "12.000" = "12" ∧
    _normalize_for_key " Mixed.Case " = "mixed.case" := by
  constructor
  · have h := c4_key_normalization.2.2.2.2.1 "12.000" (by decide)
    rw [h]; decide
  · have h := c4_key_normalization.2.2.2.2.2 " Mixed.Case " (by decide)
    rw [h]; decide

/-! ### C1: the statistics balance invariant -/

theorem step_balanced (u : Bool) (k m : List (Option Nat)) (st : MergeState)
    (row : List String) (h : Balanced st.totals) :
    Balanced (step u k m st row).totals := by
  unfold Balanced at h ⊢
  simp only [step]
  split
  · split <;> simp <;> omega
  · split <;> simp <;> omega

theorem foldl_step_balanced (u : Bool) (k m : List (Option Nat))
    (rows : List (List String)) :
    ∀ st : MergeState, Balanced st.totals →
      Balanced ((rows.foldl (step u k m) st)).totals := by
  induction rows with
  | nil => intro st h; exact h
  | cons r rest ih =>
    intro st h
    exact ih _ (step_balanced u k m st r h)

theorem processFile_balanced (u : Bool) (k : List (Option Nat))
    (H : List String) (st : MergeState) (file : List (List String))
    (h : Balanced st.totals) :
    Balanced (processFile u k H st file).totals := by
  simp only [processFile]
  cases file with
  | nil => simpa [Balanced] using h
  | cons sh rows =>
    apply foldl_step_balanced
    simpa [Balanced] using h

theorem foldl_processFile_balanced (u : Bool) (k : List (Option Nat))
    (H : List String) (files : List (List (List String))) :
    ∀ st : MergeState, Balanced st.totals →
      Balanced ((files.foldl (processFile u k H) st)).totals := by
  induction files with
  | nil => intro st h; exact h
  | cons f rest ih =>
    intro st h
    exact ih _ (processFile_balanced u k H st f h)

/-- C1: for every run of `combine_csvs` that completes, the returned
statistics satisfy `rows_in = rows_out + duplicates_skipped`: each row read
after a header is counted exactly once, as written or as a skipped
duplicate. -/
theorem c1_rows_balance (files : List (List (List String))) (t : Totals)
    (out : List (List String)) (h : combine_files files = .ok (t, out)) :
    t.rows_in = t.rows_out + t.duplicates_skipped := by
  simp only [combine_files] at h
  split at h
  · exact absurd h (by simp)
  · split at h
    · exact absurd h (by simp)
    · simp only [Except.ok.injEq, Prod.mk.injEq] at h
      obtain ⟨h1, -⟩ := h
      rw [← h1]
      exact foldl_processFile_balanced _ _ _ files initState
        (by simp [Balanced, initState])

set_option maxRecDepth 20000 in
/-- C1 witness: a one-file run in semantic-key mode. -/
theorem c1_rows_balance_witness :
    (⟨1, 1, 0, 1⟩ : Totals).rows_in =
      (⟨1, 1, 0, 1⟩ : Totals).rows_out +
        (⟨1, 1, 0, 1⟩ : Totals).duplicates_skipped :=
  c1_rows_balance [[["game_id", "play_id"], ["1", "2"]]] ⟨1, 1, 0, 1⟩
    [["game_id", "play_id"], ["1", "2"]] (by decide)

set_option maxRecDepth 100000 in
/-- C2: merging `a.csv` (header `id,val`, rows `(1,x)`, `(2,y)`) and
`b.csv` (header `val,id`, rows `(y,2)`, `(z,3)`) yields exactly the three
rows `(1,x)`, `(2,y)`, `(3,z)` under canonical header `id,val`, the second
occurrence of id=2 being dropped as the one duplicate despite the differing
column order of the two files. -/
theorem c2_two_file_scenario :
    combine_csvs
      [("a.csv", [["id", "val"], ["1", "x"], ["2", "y"]]),
       ("b.csv", [["val", "id"], ["y", "2"], ["z", "3"]])] =
    Except.ok (⟨2, 4, 1, 3⟩,
      [["id", "val"], ["1", "x"], ["2", "y"], ["3", "z"]]) := by
  decide

/-! ### C6: the two fatal input conditions -/

theorem firstHeader_eq_none (fs : List (List (List String)))
    (h : ∀ f ∈ fs, read_header f = []) : firstHeader fs = none := by
  induction fs with
  | nil => rfl
  | cons f rest ih =>
    have hf : read_header f = [] := h f (List.mem_cons_self f rest)
    simp only [firstHeader, hf, List.isEmpty_nil, if_true]
    exact ih (fun g hg => h g (List.mem_cons_of_mem _ hg))

/-- C6: the merge fails fatally with `NoInputFiles` when the directory holds
no file with a CSV extension, and with the distinct `EmptyInputSet` when
every CSV file has no header row; both conditions are raised before the
output file is opened, so an error result carries no output. -/
theorem c6_fatal_conditions (dir : List DirEntry) :
    (list_csvs dir = [] → combine_csvs dir = .error .noInputFiles) ∧
    (list_csvs dir ≠ [] →
      (∀ f ∈ list_csvs dir, read_header f.2 = []) →
        combine_csvs dir = .error .emptyInputSet) := by
  constructor
  · intro h
    simp [combine_csvs, combine_files, h]
  · intro h1 h2
    simp only [combine_csvs, combine_files]
    have hne : ((list_csvs dir).map Prod.snd).isEmpty = false := by
      rw [List.isEmpty_eq_false]
      simpa using h1
    rw [hne]
    have hhdr : firstHeader ((list_csvs dir).map Prod.snd) = none := by
      apply firstHeader_eq_none
      intro f hf
      obtain ⟨e, he, rfl⟩ := List.mem_map.mp hf
      exact h2 e he
    rw [hhdr]
    rfl

/-- C6 witness: a directory with one non-CSV file, and a directory whose
two CSV files are both empty. -/
theorem c6_fatal_conditions_witness :
    combine_csvs [("notes.txt", [["id"], ["1"]])] =
      .error .noInputFiles ∧
    combine_csvs [("a.csv", []), ("b.csv", [])] =
      .error .emptyInputSet :=
  ⟨(c6_fatal_conditions [("notes.txt", [["id"], ["1"]])]).1 (by decide),
   (c6_fatal_conditions [("a.csv", []), ("b.csv", [])]).2 (by decide)
     (by decide)⟩

/-! ### C9: the key columns and the dedup mode -/

/-- C9: the configured key columns are exactly `game_id` and `play_id`; the
merge runs in semantic-key mode iff both occur in the canonical header (the
mode is computed once from the canonical header in `combine_files` and
passed unchanged to every `step`); when it does not, the per-row step
deduplicates by the SHA-256 full-row hash: it writes the row iff the hash is
unseen and counts a duplicate iff the hash was seen. -/
theorem c9_key_mode (H : List String) (k m : List (Option Nat))
    (st : MergeState) (row : List String) :
    KEY_COLUMNS = ["game_id", "play_id"] ∧
    (use_key_of H = true ↔ ("game_id" ∈ H ∧ "play_id" ∈ H)) ∧
    (use_key_of H = false →
      ((step (use_key_of H) k m st row).totals.rows_out =
          st.totals.rows_out + 1 ↔
        hash_row (row_to_dst row m) ∉ st.seen_full_rows) ∧
      ((step (use_key_of H) k m st row).totals.duplicates_skipped =
          st.totals.duplicates_skipped + 1 ↔
        hash_row (row_to_dst row m) ∈ st.seen_full_rows)) := by
  refine ⟨rfl, ?_, ?_⟩
  · simp [use_key_of, key_idx_of, KEY_COLUMNS, idx_by_name_isSome_iff]
  · intro hu
    rw [hu]
    simp only [step, Bool.false_eq_true, if_false]
    by_cases hmem : hash_row (row_to_dst row m) ∈ st.seen_full_rows
    · simp [hmem]
    · simp [hmem]

/-- C9 witness: a canonical header without the key columns, on which the
step writes an unseen row. -/
theorem c9_key_mode_witness :
    (step (use_key_of ["id"]) (key_idx_of ["id"]) [some 0] initState
        ["7"]).totals.rows_out = initState.totals.rows_out + 1 ↔
      hash_row (row_to_dst ["7"] [some 0]) ∉ initState.seen_full_rows :=
  ((c9_key_mode ["id"] (key_idx_of ["id"]) [some 0] initState ["7"]).2.2
    (by decide)).1

/-! ### C10: the column stripper scenario -/

theorem padRow_getD (row : List String) (n i : Nat) (hi : i < n) :
    (padRow row n).getD i "" = row.getD i "" := by
  unfold padRow
  by_cases h : i < row.length
  · rw [List.getD_append _ _ _ _ h]
  · have hrow : row.getD i "" = "" := List.getD_eq_default _ _ (by omega)
    rw [hrow, List.getD_eq_getElem?_getD, List.getElem?_append_right (by omega),
      List.getElem?_replicate]
    split <;> rfl

/-- C10: the column stripper on a file with header `id,Unnamed: 0,val`
removes exactly one column, leaves the header `id,val`, and truncates every
data row to its corresponding two cells. -/
theorem c10_strip_unnamed (rows : List (List String)) :
    remove_unnamed_columns (["id", "Unnamed: 0", "val"] :: rows) =
      (1, ["id", "val"] ::
        rows.map (fun r => [r.getD 0 "", r.getD 2 ""])) := by
  have h0 : ∀ r : List String, (padRow r 3).getD 0 "" = r.getD 0 "" :=
    fun r => padRow_getD r 3 0 (by omega)
  have h2 : ∀ r : List String, (padRow r 3).getD 2 "" = r.getD 2 "" :=
    fun r => padRow_getD r 3 2 (by omega)
  have hk : (List.range (["id", "Unnamed: 0", "val"] : List String).length).filter
      (fun i => !isUnnamed ((["id", "Unnamed: 0", "val"] : List String).getD i ""))
      = [0, 2] := by decide
  simp only [remove_unnamed_columns]
  rw [hk]
  simp only [List.map_cons, List.map_nil, List.length_cons, List.length_nil]
  norm_num
  intro a _
  refine ⟨?_, ?_⟩
  · simpa only [List.getD_eq_getElem?_getD] using h0 a
  · simpa only [List.getD_eq_getElem?_getD] using h2 a

/-! ### C5: output rows are verbatim mapped rows -/

theorem step_out_rows (u : Bool) (k m : List (Option Nat)) (st : MergeState)
    (row : List String) :
    (step u k m st row).out_rows = st.out_rows ∨
      (step u k m st row).out_rows = st.out_rows ++ [row_to_dst row m] := by
  simp only [step]
  split
  · split
    · left; rfl
    · right; rfl
  · split
    · left; rfl
    · right; rfl

theorem foldl_step_out_rows (u : Bool) (k m : List (Option Nat))
    (rows : List (List String)) :
    ∀ (st : MergeState) (r : List String),
      r ∈ (rows.foldl (step u k m) st).out_rows →
      r ∈ st.out_rows ∨ ∃ row ∈ rows, r = row_to_dst row m := by
  induction rows with
  | nil => intro st r hr; exact Or.inl hr
  | cons row0 rest ih =>
    intro st r hr
    rcases ih (step u k m st row0) r hr with h | ⟨row, hrow, rfl⟩
    · rcases step_out_rows u k m st row0 with he | he
      · rw [he] at h
        exact Or.inl h
      · rw [he] at h
        rcases List.mem_append.mp h with h | h
        · exact Or.inl h
        · exact Or.inr ⟨row0, List.mem_cons_self _ _,
            List.mem_singleton.mp h⟩
    · exact Or.inr ⟨row, List.mem_cons_of_mem _ hrow, rfl⟩

theorem processFile_out_rows (u : Bool) (k : List (Option Nat))
    (H : List String) (st : MergeState) (file : List (List String))
    (r : List String) (hr : r ∈ (processFile u k H st file).out_rows) :
    r ∈ st.out_rows ∨
      ∃ src_header body, file = src_header :: body ∧
        ∃ row ∈ body, r = row_to_dst row (build_index_map src_header H) := by
  simp only [processFile] at hr
  cases file with
  | nil => exact Or.inl hr
  | cons sh body =>
    rcases foldl_step_out_rows _ _ _ body _ r hr with h | ⟨row, hrow, rfl⟩
    · exact Or.inl h
    · exact Or.inr ⟨sh, body, rfl, row, hrow, rfl⟩

theorem foldl_processFile_out_rows (u : Bool) (k : List (Option Nat))
    (H : List String) (files : List (List (List String))) :
    ∀ (st : MergeState) (r : List String),
      r ∈ (files.foldl (processFile u k H) st).out_rows →
      r ∈ st.out_rows ∨
        ∃ src_header body, (src_header :: body) ∈ files ∧
          ∃ row ∈ body, r = row_to_dst row (build_index_map src_header H) := by
  induction files with
  | nil => intro st r hr; exact Or.inl hr
  | cons f rest ih =>
    intro st r hr
    rcases ih (processFile u k H st f) r hr with h | ⟨sh, body, hmem, row, hrow, rfl⟩
    · rcases processFile_out_rows u k H st f r h with h | ⟨sh, body, rfl, row, hrow, rfl⟩
      · exact Or.inl h
      · exact Or.inr ⟨sh, body, List.mem_cons_self _ _, row, hrow, rfl⟩
    · exact Or.inr ⟨sh, body, List.mem_cons_of_mem _ hmem, row, hrow, rfl⟩

/-- C5: key normalization is used only for duplicate detection: every data
row of the output equals `row_to_dst row idx_map` for some row of some input
file — cells copied verbatim from the source row, missing columns as the
empty string — never the normalized form of any cell. -/
theorem c5_output_rows_verbatim (files : List (List (List String)))
    (t : Totals) (H : List String) (rows : List (List String))
    (h : combine_files files = .ok (t, H :: rows)) :
    ∀ r ∈ rows, ∃ src_header body, (src_header :: body) ∈ files ∧
      ∃ row ∈ body, r = row_to_dst row (build_index_map src_header H) := by
  simp only [combine_files] at h
  split at h
  · exact absurd h (by simp)
  · split at h
    · exact absurd h (by simp)
    · simp only [Except.ok.injEq, Prod.mk.injEq, List.cons.injEq] at h
      obtain ⟨-, rfl, hrows⟩ := h
      intro r hr
      rw [← hrows] at hr
      rcases foldl_processFile_out_rows _ _ _ files initState r hr with
        hmem | hfound
      · simp [initState] at hmem
      · exact hfound

set_option maxRecDepth 20000 in
/-- C5 witness: a one-file run in semantic-key mode; its single output row
is the verbatim mapping of the single input row. -/
theorem c5_output_rows_verbatim_witness :
    ∃ src_header body,
      (src_header :: body) ∈ [[["game_id", "play_id"], ["1", "2"]]] ∧
      ∃ row ∈ body, ["1", "2"] =
        row_to_dst row (build_index_map src_header ["game_id", "play_id"]) :=
  c5_output_rows_verbatim [[["game_id", "play_id"], ["1", "2"]]] ⟨1, 1, 0, 1⟩
    ["game_id", "play_id"] [["1", "2"]] (by decide) ["1", "2"] (by decide)

/-! ### C8: idempotence of the merge -/

theorem step_skip_hash (k m : List (Option Nat)) (st : MergeState)
    (row : List String)
    (hmem : hash_row (row_to_dst row m) ∈ st.seen_full_rows) :
    step false k m st row =
      { st with totals := { st.totals with
          rows_in := st.totals.rows_in + 1,
          duplicates_skipped := st.totals.duplicates_skipped + 1 } } := by
  simp [step, hmem]

theorem step_write_hash (k m : List (Option Nat)) (st : MergeState)
    (row : List String)
    (hmem : hash_row (row_to_dst row m) ∉ st.seen_full_rows) :
    step false k m st row =
      { st with
        seen_full_rows := hash_row (row_to_dst row m) :: st.seen_full_rows,
        out_rows := st.out_rows ++ [row_to_dst row m],
        totals := { st.totals with
          rows_in := st.totals.rows_in + 1,
          rows_out := st.totals.rows_out + 1 } } := by
  simp [step, hmem]

theorem step_skip_key (k m : List (Option Nat)) (st : MergeState)
    (row : List String)
    (hmem : keyTuple k (row_to_dst row m) ∈ st.seen_keys) :
    step true k m st row =
      { st with totals := { st.totals with
          rows_in := st.totals.rows_in + 1,
          duplicates_skipped := st.totals.duplicates_skipped + 1 } } := by
  simp [step, hmem]

theorem step_write_key (k m : List (Option Nat)) (st : MergeState)
    (row : List String)
    (hmem : keyTuple k (row_to_dst row m) ∉ st.seen_keys) :
    step true k m st row =
      { st with
        seen_keys := keyTuple k (row_to_dst row m) :: st.seen_keys,
        out_rows := st.out_rows ++ [row_to_dst row m],
        totals := { st.totals with
          rows_in := st.totals.rows_in + 1,
          rows_out := st.totals.rows_out + 1 } } := by
  simp [step, hmem]

theorem seenInv_update_totals (u : Bool) (k : List (Option Nat))
    (st : MergeState) (T : Totals) :
    SeenInv u k { st with totals := T } ↔ SeenInv u k st := by
  cases u <;> exact Iff.rfl

theorem step_seenInv (u : Bool) (k m : List (Option Nat)) (st : MergeState)
    (row : List String) (h : SeenInv u k st) :
    SeenInv u k (step u k m st row) := by
  cases u
  · obtain ⟨hnd, hin⟩ := h
    by_cases hmem : hash_row (row_to_dst row m) ∈ st.seen_full_rows
    · rw [step_skip_hash k m st row hmem]
      exact ⟨hnd, hin⟩
    · rw [step_write_hash k m st row hmem]
      constructor
      · rw [List.map_append, List.nodup_append_comm]
        simp only [List.map_cons, List.map_nil, List.singleton_append]
        rw [List.nodup_cons]
        refine ⟨?_, hnd⟩
        intro hc
        obtain ⟨r, hr, heq⟩ := List.mem_map.mp hc
        exact hmem (heq ▸ hin r hr)
      · intro r hr
        rcases List.mem_append.mp hr with hr | hr
        · exact List.mem_cons_of_mem _ (hin r hr)
        · rw [List.mem_singleton.mp hr]
          exact List.mem_cons_self _ _
  · obtain ⟨hnd, hin⟩ := h
    by_cases hmem : keyTuple k (row_to_dst row m) ∈ st.seen_keys
    · rw [step_skip_key k m st row hmem]
      exact ⟨hnd, hin⟩
    · rw [step_write_key k m st row hmem]
      constructor
      · rw [List.map_append, List.nodup_append_comm]
        simp only [List.map_cons, List.map_nil, List.singleton_append]
        rw [List.nodup_cons]
        refine ⟨?_, hnd⟩
        intro hc
        obtain ⟨r, hr, heq⟩ := List.mem_map.mp hc
        exact hmem (heq ▸ hin r hr)
      · intro r hr
        rcases List.mem_append.mp hr with hr | hr
        · exact List.mem_cons_of_mem _ (hin r hr)
        · rw [List.mem_singleton.mp hr]
          exact List.mem_cons_self _ _

theorem foldl_step_seenInv (u : Bool) (k m : List (Option Nat))
    (rows : List (List String)) :
    ∀ st : MergeState, SeenInv u k st →
      SeenInv u k (rows.foldl (step u k m) st) := by
  induction rows with
  | nil => intro st h; exact h
  | cons r rest ih =>
    intro st h
    exact ih _ (step_seenInv u k m st r h)

theorem processFile_seenInv (u : Bool) (k : List (Option Nat))
    (H : List String) (st : MergeState) (file : List (List String))
    (h : SeenInv u k st) : SeenInv u k (processFile u k H st file) := by
  simp only [processFile]
  cases file with
  | nil => exact (seenInv_update_totals u k st _).mpr h
  | cons sh rows =>
    exact foldl_step_seenInv u k _ rows _
      ((seenInv_update_totals u k st _).mpr h)

theorem foldl_processFile_seenInv (u : Bool) (k : List (Option Nat))
    (H : List String) (files : List (List (List String))) :
    ∀ st : MergeState, SeenInv u k st →
      SeenInv u k (files.foldl (processFile u k H) st) := by
  induction files with
  | nil => intro st h; exact h
  | cons f rest ih =>
    intro st h
    exact ih _ (processFile_seenInv u k H st f h)

theorem seenInv_initState (u : Bool) (k : List (Option Nat)) :
    SeenInv u k initState := by
  cases u <;> exact ⟨List.nodup_nil, by intro r hr; simp [initState] at hr⟩

theorem firstHeader_ne_nil (fs : List (List (List String))) (H : List String)
    (h : firstHeader fs = some H) : H ≠ [] := by
  induction fs with
  | nil => simp [firstHeader] at h
  | cons f rest ih =>
    simp only [firstHeader] at h
    split at h
    · exact ih h
    · obtain rfl := Option.some.inj h
      rename_i hne
      simpa [List.isEmpty_iff] using hne

theorem run2_foldl (u : Bool) (k m : List (Option Nat))
    (R : List (List String)) :
    ∀ st : MergeState,
    (∀ r ∈ R, row_to_dst r m = r) →
    (u = true → (R.map (keyTuple k)).Nodup ∧
      ∀ r ∈ R, keyTuple k r ∉ st.seen_keys) →
    (u = false → (R.map hash_row).Nodup ∧
      ∀ r ∈ R, hash_row r ∉ st.seen_full_rows) →
    (R.foldl (step u k m) st).out_rows = st.out_rows ++ R ∧
    (R.foldl (step u k m) st).totals.duplicates_skipped =
      st.totals.duplicates_skipped ∧
    (R.foldl (step u k m) st).totals.rows_out =
      st.totals.rows_out + R.length ∧
    (R.foldl (step u k m) st).totals.rows_in =
      st.totals.rows_in + R.length ∧
    (R.foldl (step u k m) st).totals.files = st.totals.files := by
  induction R with
  | nil => intro st _ _ _; simp
  | cons r0 rest ih =>
    intro st hfix hkey hhash
    have hfix0 : row_to_dst r0 m = r0 := hfix r0 (List.mem_cons_self _ _)
    cases u
    · obtain ⟨hnd, hnin⟩ := hhash rfl
      rw [List.map_cons] at hnd
      obtain ⟨hnotin, hndrest⟩ := List.nodup_cons.mp hnd
      have hmem : hash_row (row_to_dst r0 m) ∉ st.seen_full_rows := by
        rw [hfix0]
        exact hnin r0 (List.mem_cons_self _ _)
      have hstep := step_write_hash k m st r0 hmem
      rw [hfix0] at hstep
      have hhash' : ∀ r ∈ rest,
          hash_row r ∉ (step false k m st r0).seen_full_rows := by
        intro r hr hmem'
        rw [hstep] at hmem'
        rcases List.mem_cons.mp hmem' with heq | hmem'
        · exact hnotin (heq ▸ List.mem_map_of_mem hash_row hr)
        · exact hnin r (List.mem_cons_of_mem _ hr) hmem'
      have hrest := ih (step false k m st r0)
        (fun r hr => hfix r (List.mem_cons_of_mem _ hr))
        (fun hu => absurd hu (by simp))
        (fun _ => ⟨hndrest, hhash'⟩)
      rw [List.foldl_cons]
      refine ⟨?_, ?_, ?_, ?_, ?_⟩
      · rw [hrest.1, hstep]
        simp
      · rw [hrest.2.1, hstep]
      · rw [hrest.2.2.1, hstep]
        simp only [List.length_cons]
        omega
      · rw [hrest.2.2.2.1, hstep]
        simp only [List.length_cons]
        omega
      · rw [hrest.2.2.2.2, hstep]
    · obtain ⟨hnd, hnin⟩ := hkey rfl
      rw [List.map_cons] at hnd
      obtain ⟨hnotin, hndrest⟩ := List.nodup_cons.mp hnd
      have hmem : keyTuple k (row_to_dst r0 m) ∉ st.seen_keys := by
        rw [hfix0]
        exact hnin r0 (List.mem_cons_self _ _)
      have hstep := step_write_key k m st r0 hmem
      rw [hfix0] at hstep
      have hkey' : ∀ r ∈ rest,
          keyTuple k r ∉ (step true k m st r0).seen_keys := by
        intro r hr hmem'
        rw [hstep] at hmem'
        rcases List.mem_cons.mp hmem' with heq | hmem'
        · exact hnotin (heq ▸ List.mem_map_of_mem (keyTuple k) hr)
        · exact hnin r (List.mem_cons_of_mem _ hr) hmem'
      have hrest := ih (step true k m st r0)
        (fun r hr => hfix r (List.mem_cons_of_mem _ hr))
        (fun _ => ⟨hndrest, hkey'⟩)
        (fun hu => absurd hu (by simp))
      rw [List.foldl_cons]
      refine ⟨?_, ?_, ?_, ?_, ?_⟩
      · rw [hrest.1, hstep]
        simp
      · rw [hrest.2.1, hstep]
      · rw [hrest.2.2.1, hstep]
        simp only [List.length_cons]
        omega
      · rw [hrest.2.2.2.1, hstep]
        simp only [List.length_cons]
        omega
      · rw [hrest.2.2.2.2, hstep]

theorem combine_files_singleton (H : List String) (R : List (List String))
    (hne : H ≠ []) :
    combine_files [H :: R] = .ok
      ((R.foldl (step (use_key_of H) (key_idx_of H) (build_index_map H H))
          { initState with totals :=
            { initState.totals with
              files := initState.totals.files + 1 } }).totals,
        H :: (R.foldl (step (use_key_of H) (key_idx_of H) (build_index_map H H))
          { initState with totals :=
            { initState.totals with
              files := initState.totals.files + 1 } }).out_rows) := by
  have hfh : firstHeader [H :: R] = some H := by
    simp [firstHeader, read_header, List.isEmpty_iff, hne]
  simp only [combine_files, List.isEmpty_cons, Bool.false_eq_true, if_false,
    hfh, List.foldl_cons, List.foldl_nil, processFile]

/-- C8: the merge is idempotent: running it again with the already-merged
output as the sole input yields an output identical to that input — the same
header and the same rows in the same order — with zero duplicates skipped,
since every dedup key in the merged output is already unique. -/
theorem c8_idempotent (files : List (List (List String))) (t : Totals)
    (out : List (List String))
    (h : combine_files files = .ok (t, out)) :
    ∃ t' : Totals,
      combine_csvs [("merged.csv", out)] = .ok (t', out) ∧
      t'.duplicates_skipped = 0 := by
  simp only [combine_files] at h
  split at h
  · exact absurd h (by simp)
  · split at h
    · exact absurd h (by simp)
    · rename_i H hH
      simp only [Except.ok.injEq, Prod.mk.injEq] at h
      obtain ⟨-, hout⟩ := h
      subst hout
      have hseen : SeenInv (use_key_of H) (key_idx_of H)
          (files.foldl (processFile (use_key_of H) (key_idx_of H) H)
            initState) :=
        foldl_processFile_seenInv _ _ _ files initState (seenInv_initState _ _)
      have hfix : ∀ r ∈ (files.foldl
          (processFile (use_key_of H) (key_idx_of H) H) initState).out_rows,
          row_to_dst r (build_index_map H H) = r := by
        intro r hr
        rcases foldl_processFile_out_rows (use_key_of H) (key_idx_of H) H
            files initState r hr with hmem | ⟨sh, body, -, row, -, rfl⟩
        · simp [initState] at hmem
        · exact row_to_dst_self_map H sh row
      have hHne := firstHeader_ne_nil files H hH
      generalize hgen : files.foldl
        (processFile (use_key_of H) (key_idx_of H) H) initState = fin
          at hseen hfix ⊢
      have hcsv : combine_csvs [("merged.csv", H :: fin.out_rows)] =
          combine_files [H :: fin.out_rows] := rfl
      rw [hcsv, combine_files_singleton H fin.out_rows hHne]
      have hkeyhyp : use_key_of H = true →
          ((fin.out_rows.map (keyTuple (key_idx_of H))).Nodup ∧
            ∀ r ∈ fin.out_rows, keyTuple (key_idx_of H) r ∉
              ({ initState with totals :=
                { initState.totals with
                  files := initState.totals.files + 1 } } :
                    MergeState).seen_keys) := by
        intro hu
        rw [hu] at hseen
        exact ⟨hseen.1, fun r _ => by simp [initState]⟩
      have hhashhyp : use_key_of H = false →
          ((fin.out_rows.map hash_row).Nodup ∧
            ∀ r ∈ fin.out_rows, hash_row r ∉
              ({ initState with totals :=
                { initState.totals with
                  files := initState.totals.files + 1 } } :
                    MergeState).seen_full_rows) := by
        intro hu
        rw [hu] at hseen
        exact ⟨hseen.1, fun r _ => by simp [initState]⟩
      obtain ⟨ho, hd, -, -, -⟩ := run2_foldl (use_key_of H) (key_idx_of H)
        (build_index_map H H) fin.out_rows
        { initState with totals :=
          { initState.totals with files := initState.totals.files + 1 } }
        hfix hkeyhyp hhashhyp
      refine ⟨(fin.out_rows.foldl (step (use_key_of H) (key_idx_of H)
            (build_index_map H H))
          { initState with totals :=
            { initState.totals with
              files := initState.totals.files + 1 } }).totals, ?_, ?_⟩
      · rw [ho]
        simp [initState]
      · rw [hd]
        rfl

set_option maxRecDepth 20000 in
/-- C8 witness: re-merging the completed output of a one-file key-mode
run. -/
theorem c8_idempotent_witness :
    ∃ t' : Totals,
      combine_csvs [("merged.csv", [["game_id", "play_id"], ["1", "2"]])] =
        .ok (t', [["game_id", "play_id"], ["1", "2"]]) ∧
      t'.duplicates_skipped = 0 :=
  c8_idempotent [[["game_id", "play_id"], ["1", "2"]]] ⟨1, 1, 0, 1⟩
    [["game_id", "play_id"], ["1", "2"]] (by decide)

example : _normalize_for_key "7" = "7" := by decide
example : _normalize_for_key "7.0" = "7" := by decide
example : _normalize_for_key " 7.00 " = "7" := by decide
example : _normalize_for_key "ABC" = "abc" := by decide
example : _normalize_for_key "7.5" = "7.5" := by decide
example : _normalize_for_key "" = "" := by decide
example : _normalize_for_key "007" = "7" := by decide
example : _normalize_for_key "7." = "7" := by decide
example : _normalize_for_key ".5" = ".5" := by decide
example : _normalize_for_key "1.2.3" = "1.2.3" := by decide
example : build_index_map ["a", "a"] ["a"] = [some 1] := by decide
example : row_to_dst ["x", "y"] [some 1, none, some 7] = ["y", "", ""] := by decide

set_option maxRecDepth 10000 in
example : sha256 [] =
    [227, 176, 196, 66, 152, 252, 28, 20, 154, 251, 244, 200,
     153, 111, 185, 36, 39, 174, 65, 228, 100, 155, 147, 76,
     164, 149, 153, 27, 120, 82, 184, 85] := by decide

set_option maxRecDepth 10000 in
example : sha256 (strUtf8 "abc") =
    [186, 120, 22, 191, 143, 1, 207, 234, 65, 65, 64, 222,
     93, 174, 34, 35, 176, 3, 97, 163, 150, 23, 122, 156,
     180, 16, 255, 97, 242, 0, 21, 173] := by decide

end CombineCsvs
